import Mathlib

/-!
Verification of the sequence-containment subsystem of the `funky` library:
`ContainsSequence` and its two searchers, `bruteForceSearch` and
`apostolicoCrochemoreSearch` (Lecroq-style Apostolico-Crochemore).

The Go code is shallowly embedded: slices become `List T`, Go `int`
becomes `Int` (no overflow is relevant at these sizes), every slice
index operation goes through `readL`/`writeL` which return an explicit
out-of-bounds error, and the loops whose termination is not structural
carry a fuel parameter; exhausting fuel is an explicit error distinct
from the out-of-bounds one.
-/

namespace Funky

/-- Runtime failure modes of the embedding: an out-of-bounds slice index
(a Go panic) or fuel exhaustion (the loop did not terminate within the
supplied bound). -/
inductive Err : Type where
  | oob : Err
  | fuel : Err
deriving DecidableEq

/-- Sequencing of fallible computations. -/
def eBind {α β : Type} (x : Except Err α) (f : α → Except Err β) : Except Err β :=
  match x with
  | .ok a => f a
  | .error e => .error e

/-- Read `xs[i]` with Go semantics: panic (error) when `i` is negative or
not smaller than the length. -/
def readL {α : Type} (xs : List α) (i : Int) : Except Err α :=
  if h : 0 ≤ i ∧ i.toNat < xs.length then .ok (xs.get ⟨i.toNat, h.2⟩) else .error .oob

/-- Write `xs[i] = a` with Go semantics. -/
def writeL {α : Type} (xs : List α) (i : Int) (a : α) : Except Err (List α) :=
  if 0 ≤ i ∧ i.toNat < xs.length then .ok (xs.set i.toNat a) else .error .oob

/-! ## Specification predicates (from the spec's own words) -/

/-- The pattern `seq` matches the haystack `s` at offset `j`:
`seq[t] = s[j+t]` for every `t < len seq`. -/
def matchesAt (s seq : List T) (j : Nat) : Prop :=
  ∀ t < seq.length, seq[t]? = s[j + t]?

/-- `seq` occurs in `s` at offset `j`: `j` is a valid offset and the
pattern matches there. -/
def occursAtN (s seq : List T) (j : Nat) : Prop :=
  j + seq.length ≤ s.length ∧ matchesAt s seq j

/-- `seq` occurs somewhere in `s`: some valid offset matches. -/
def occursIn (s seq : List T) : Prop :=
  ∃ j, occursAtN s seq j

instance matchesAt.dec [DecidableEq T] (s seq : List T) (j : Nat) :
    Decidable (matchesAt s seq j) :=
  Nat.decidableBallLT _ _

instance occursAtN.dec [DecidableEq T] (s seq : List T) (j : Nat) :
    Decidable (occursAtN s seq j) :=
  inferInstanceAs (Decidable (_ ∧ _))

instance occursIn.dec [DecidableEq T] (s seq : List T) :
    Decidable (occursIn s seq) := by
  refine decidable_of_iff
    (∃ j < s.length + 1, occursAtN s seq j) ?_
  constructor
  · rintro ⟨j, _, hj⟩; exact ⟨j, hj⟩
  · rintro ⟨j, hj⟩; exact ⟨j, by have := hj.1; omega, hj⟩

/-! ## `Contains` (linear scan for one element) -/

/-- `Contains` checks if `s` contains `ele` (Go: a `range` loop with an
early `return true`). -/
def Contains [DecidableEq T] : List T → T → Bool
  | [], _ => false
  | e :: rest, ele => if e = ele then true else Contains rest ele

/-! ## `bruteForceSearch` -/

/-- Inner loop of `bruteForceSearch`: compare `seq[seqIdx..]` against
`s[idx+seqIdx..]`; `ok false` models `continue Outer`. -/
def bruteInner [DecidableEq T] (s seq : List T) (idx : Nat) (seqIdx : Nat) :
    Except Err Bool :=
  if seqIdx < seq.length then
    eBind (readL s ((idx : Int) + (seqIdx : Int))) fun a =>
    eBind (readL seq (seqIdx : Int)) fun b =>
    if a ≠ b then .ok false else bruteInner s seq idx (seqIdx + 1)
  else .ok true
termination_by seq.length - seqIdx

/-- Outer loop of `bruteForceSearch`: `for idx := range s`, with the
`len(s)-idx < len(seq)` break. -/
def bruteOuter [DecidableEq T] (s seq : List T) (idx : Nat) : Except Err Bool :=
  if idx < s.length then
    if (s.length : Int) - (idx : Int) < (seq.length : Int) then .ok false
    else
      eBind (bruteInner s seq idx 0) fun matched =>
      if matched then .ok true else bruteOuter s seq (idx + 1)
  else .ok false
termination_by s.length - idx

/-- `bruteForceSearch` performs a naive brute force search for the
subarray `seq` in `s`. -/
def bruteForceSearch [DecidableEq T] (s seq : List T) : Except Err Bool :=
  bruteOuter s seq 0

/-! ## Apostolico-Crochemore: preprocessing -/

/-- Fallback chase in the `kmpNext` construction:
`for y > -1 && (x == len(seq) || seq[x] != seq[y]) { y = kmpNext[y] }`.
The disjunction is short-circuiting, as in Go. -/
def fallbackLoop [DecidableEq T] (seq : List T) (kmp : List Int) (x : Int) :
    Nat → Int → Except Err Int
  | 0, _ => .error .fuel
  | f + 1, y =>
    if y > -1 then
      if x = (seq.length : Int) then
        eBind (readL kmp y) fun y' => fallbackLoop seq kmp x f y'
      else
        eBind (readL seq x) fun a =>
        eBind (readL seq y) fun b =>
        if a ≠ b then
          eBind (readL kmp y) fun y' => fallbackLoop seq kmp x f y'
        else .ok y
    else .ok y

/-- Outer loop of the `kmpNext` construction (`for x < len(seq)`). -/
def buildLoop [DecidableEq T] (seq : List T) :
    Nat → Int → Int → List Int → Except Err (List Int)
  | 0, _, _, _ => .error .fuel
  | f + 1, x, y, kmp =>
    if x < (seq.length : Int) then
      eBind (fallbackLoop seq kmp x (f + 1) y) fun y₀ =>
      eBind
        (if (x + 1) ≠ (seq.length : Int) then
          eBind (readL seq (x + 1)) fun a =>
          eBind (readL seq (y₀ + 1)) fun b =>
          if a = b then readL kmp (y₀ + 1) else .ok (y₀ + 1)
        else .ok (y₀ + 1)) fun v =>
      eBind (writeL kmp (x + 1) v) fun kmp' =>
      buildLoop seq f (x + 1) (y₀ + 1) kmp'
    else .ok kmp

/-- The `kmpNext` table: `make([]int, len(seq)+1)` (zero filled),
`kmpNext[0] = -1`, then the construction loop from `x = 0`, `y = -1`. -/
def kmpNextOf [DecidableEq T] (seq : List T) (fuel : Nat) : Except Err (List Int) :=
  eBind (writeL (List.replicate (seq.length + 1) 0) 0 (-1)) fun kmp0 =>
  buildLoop seq fuel 0 (-1) kmp0

/-- The `ell` loop: `for ell < len(seq) && seq[ell-1] == seq[ell] { ell++ }`. -/
def ellLoop [DecidableEq T] (seq : List T) : Nat → Nat → Except Err Nat
  | 0, _ => .error .fuel
  | f + 1, ell =>
    if ell < seq.length then
      eBind (readL seq ((ell : Int) - 1)) fun a =>
      eBind (readL seq (ell : Int)) fun b =>
      if a = b then ellLoop seq f (ell + 1) else .ok ell
    else .ok ell

/-- The period prefix length `ell`: run the loop from `ell = 1`, then
reset to `0` when it reached `len(seq)`. -/
def computeEll [DecidableEq T] (seq : List T) (fuel : Nat) : Except Err Nat :=
  eBind (ellLoop seq fuel 1) fun ell =>
  if ell = seq.length then .ok 0 else .ok ell

/-! ## Apostolico-Crochemore: search -/

/-- Suffix phase: `for i < len(seq) && seq[i] == s[i+j] { i++ }`. -/
def suffixLoop [DecidableEq T] (s seq : List T) (j : Int) :
    Nat → Int → Except Err Int
  | 0, _ => .error .fuel
  | f + 1, i =>
    if i < (seq.length : Int) then
      eBind (readL seq i) fun a =>
      eBind (readL s (i + j)) fun b =>
      if a = b then suffixLoop s seq j f (i + 1) else .ok i
    else .ok i

/-- Periodic-prefix phase: `for k < ell && seq[k] == s[j+k] { k++ }`. -/
def prefixLoop [DecidableEq T] (s seq : List T) (j ell : Int) :
    Nat → Int → Except Err Int
  | 0, _ => .error .fuel
  | f + 1, k =>
    if k < ell then
      eBind (readL seq k) fun a =>
      eBind (readL s (j + k)) fun b =>
      if a = b then prefixLoop s seq j ell f (k + 1) else .ok k
    else .ok k

/-- Alignment advance at the end of one scan iteration:
`j += i - kmpNext[i]` followed by the three-way update of `(i, k)`. -/
def advance (kmp : List Int) (ell i j k : Int) : Except Err (Int × Int × Int) :=
  eBind (readL kmp i) fun q =>
  if i = ell then
    .ok (i, j + (i - q), if k - 1 > 0 then k - 1 else 0)
  else if q ≤ ell then
    .ok (ell, j + (i - q), if q > 0 then q else 0)
  else
    .ok (q, j + (i - q), ell)

/-- Main scan loop of Apostolico-Crochemore
(`for j <= len(s)-len(seq)`). -/
def scanLoop [DecidableEq T] (s seq : List T) (kmp : List Int) (ell : Int) :
    Nat → Int → Int → Int → Except Err Bool
  | 0, _, _, _ => .error .fuel
  | f + 1, i, j, k =>
    if j ≤ (s.length : Int) - (seq.length : Int) then
      eBind (suffixLoop s seq j (f + 1) i) fun i₁ =>
      eBind (if i₁ ≥ (seq.length : Int) then prefixLoop s seq j ell (f + 1) k
             else .ok k) fun k₁ =>
      if i₁ ≥ (seq.length : Int) ∧ k₁ ≥ ell then .ok true
      else
        eBind (advance kmp ell i₁ j k₁) fun st =>
        scanLoop s seq kmp ell f st.1 st.2.1 st.2.2
    else .ok false

/-- `apostolicoCrochemoreSearch` implements the Apostolico-Crochemore
substring algorithm, a variant of Knuth, Morris and Pratt. -/
def apostolicoCrochemoreSearch [DecidableEq T] (s seq : List T) (fuel : Nat) :
    Except Err Bool :=
  eBind (kmpNextOf seq fuel) fun kmp =>
  eBind (computeEll seq fuel) fun ell =>
  scanLoop s seq kmp (ell : Int) fuel (ell : Int) 0 0

/-! ## `ContainsSequence` and its options -/

/-- Value of the `containsSequenceApostolicoCrochemore` string constant. -/
def containsSequenceApostolicoCrochemore : String := "ApostolicoCrochemore"

/-- Value of the `containsSequenceBruteForce` string constant. -/
def containsSequenceBruteForce : String := "BruteForce"

/-- `containsSequenceArgs` represent optional arguments to
`ContainsSequence`; the Go zero value has `searchAlgorithm = ""`. -/
structure containsSequenceArgs : Type where
  searchAlgorithm : String

/-- `ContainsSequenceOpt` mutates the argument struct in place; modelled
as a function on the struct. -/
abbrev ContainsSequenceOpt : Type := containsSequenceArgs → containsSequenceArgs

/-- Option selecting the Apostolico-Crochemore algorithm. -/
def ContainsSequenceApostolicoCrochemore : ContainsSequenceOpt :=
  fun args => { args with searchAlgorithm := containsSequenceApostolicoCrochemore }

/-- Option selecting the brute force algorithm. -/
def ContainsSequenceBruteForce : ContainsSequenceOpt :=
  fun args => { args with searchAlgorithm := containsSequenceBruteForce }

/-- The `args` value after the option-application loop
(`for _, opt := range opts { opt(&args) }`, starting from the zero
value). -/
def resolveArgs (opts : List ContainsSequenceOpt) : containsSequenceArgs :=
  opts.foldl (fun args opt => opt args) ⟨""⟩

/-- `ContainsSequence` checks if `s` contains the provided `seq`:
short-circuit branches for too-long, empty and singleton patterns, then
dispatch on the resolved option (brute force unless the
Apostolico-Crochemore selector was set last). -/
def ContainsSequence [DecidableEq T] (s seq : List T)
    (opts : List ContainsSequenceOpt) (fuel : Nat) : Except Err Bool :=
  if s.length < seq.length then .ok false
  else if seq.length = 0 then .ok true
  else if seq.length = 1 then
    eBind (readL seq 0) fun x => .ok (Contains s x)
  else
    if (resolveArgs opts).searchAlgorithm = containsSequenceApostolicoCrochemore then
      apostolicoCrochemoreSearch s seq fuel
    else
      bruteForceSearch s seq

/-! ## Proof-layer notions: borders and the strong failure function -/

/-- `seq[0..b)` is a proper border of the prefix `seq[0..i)`:
`b < i` and `seq[0..b)` is also a suffix of `seq[0..i)`. -/
def IsBorder (seq : List T) (i b : Nat) : Prop :=
  b < i ∧ ∀ t, t < b → seq[t]? = seq[i - b + t]?

/-- A border admissible for the strong ("next") failure function at
position `i`: at `i = len seq` any border, otherwise only borders whose
continuation character differs from `seq[i]`. -/
def StrongAt (seq : List T) (i b : Nat) : Prop :=
  IsBorder seq i b ∧ (i = seq.length ∨ seq[b]? ≠ seq[i]?)

/-- `q` is the value of the strong failure function at position `i`:
the largest admissible border, or `-1` when there is none. -/
def IsStrongNext (seq : List T) (i : Nat) (q : Int) : Prop :=
  (-1 ≤ q) ∧ (q = -1 ∨ StrongAt seq i q.toNat) ∧
    ∀ b : Nat, StrongAt seq i b → (b : Int) ≤ q

/-- `y` is the longest proper border of `seq[0..x)` (`-1` at `x = 0`). -/
def IsMaxBorder (seq : List T) (x : Nat) (y : Int) : Prop :=
  (x = 0 ∧ y = -1) ∨
    (0 ≤ y ∧ IsBorder seq x y.toNat ∧ ∀ b : Nat, IsBorder seq x b → (b : Int) ≤ y)

/-- `y` is the largest border of `seq[0..x)` whose continuation
character equals `seq[x]` (`-1` when there is none). -/
def IsMaxGoodBorder (seq : List T) (x : Nat) (y : Int) : Prop :=
  (y = -1 ∧ ∀ b : Nat, IsBorder seq x b → seq[b]? ≠ seq[x]?) ∨
    (0 ≤ y ∧ IsBorder seq x y.toNat ∧ seq[y.toNat]? = seq[x]? ∧
      ∀ b : Nat, IsBorder seq x b → seq[b]? = seq[x]? → (b : Int) ≤ y)

/-- What the period-prefix computation guarantees about `ell`: either
`0` (reset case), or the length of the maximal initial run of equal
elements, which is then shorter than the pattern. -/
def EllProps (seq : List T) (ell : Nat) : Prop :=
  ell = 0 ∨
    (1 ≤ ell ∧ ell < seq.length ∧ (∀ t, t < ell → seq[t]? = seq[0]?) ∧
      seq[ell]? ≠ seq[0]?)

/-- Modelled from the spec: the period-prefix loop, `ComputePeriodPrefix`:
starting from `ell`, increment while `ell < len(pattern)` and
`pattern[ell-1] == pattern[ell]`. -/
def specEllLoop [DecidableEq T] (seq : List T) (ell : Nat) : Nat :=
  if ell < seq.length ∧ seq[ell - 1]? = seq[ell]? then specEllLoop seq (ell + 1)
  else ell
termination_by seq.length - ell
decreasing_by rename_i h; omega

/-- Modelled from the spec: `ComputePeriodPrefix(pattern)`, starting at
`ell = 1` and resetting to `0` when the loop reached `len(pattern)`. -/
def specEll [DecidableEq T] (seq : List T) : Nat :=
  if specEllLoop seq 1 = seq.length then 0 else specEllLoop seq 1

/-- Fuel sufficient for every loop of the Apostolico-Crochemore search
on these inputs. -/
def acFuel (s seq : List T) : Nat := s.length + 2 * seq.length + 4

/-! ## Basic lemmas about the effect primitives -/

@[simp] theorem eBind_ok {α β : Type} (a : α) (f : α → Except Err β) :
    eBind (.ok a) f = f a := rfl

@[simp] theorem eBind_error {α β : Type} (e : Err) (f : α → Except Err β) :
    eBind (.error e) f = .error e := rfl

theorem readL_ok_iff {α : Type} {xs : List α} {i : Int} {v : α} :
    readL xs i = .ok v ↔ 0 ≤ i ∧ xs[i.toNat]? = some v := by
  unfold readL
  split
  · rename_i h
    simp [h.1, List.getElem?_eq_getElem h.2]
  · rename_i h
    constructor
    · intro hcon; cases hcon
    · rintro ⟨h0, hget⟩
      exact absurd ⟨h0, (List.getElem?_eq_some.mp hget).1⟩ h

theorem readL_ok_of_lt {α : Type} (xs : List α) (i : Int) (h0 : 0 ≤ i)
    (h1 : i.toNat < xs.length) :
    ∃ a, readL xs i = .ok a ∧ xs[i.toNat]? = some a := by
  refine ⟨xs.get ⟨i.toNat, h1⟩, ?_, ?_⟩
  · unfold readL; rw [dif_pos ⟨h0, h1⟩]
  · simp [List.getElem?_eq_getElem h1]

theorem writeL_ok_of_lt {α : Type} (xs : List α) (i : Int) (a : α) (h0 : 0 ≤ i)
    (h1 : i.toNat < xs.length) :
    writeL xs i a = .ok (xs.set i.toNat a) := by
  unfold writeL; rw [if_pos ⟨h0, h1⟩]

/-! ## `Contains` -/

theorem Contains_iff [DecidableEq T] (s : List T) (x : T) :
    Contains s x = true ↔ x ∈ s := by
  induction s with
  | nil => simp [Contains]
  | cons e rest ih =>
    by_cases he : e = x
    · simp [Contains, he]
    · simp [Contains, he, ih, Ne.symm he]

/-! ## Correctness of `bruteForceSearch` -/

theorem bruteInner_ok [DecidableEq T] (s seq : List T) (idx : Nat)
    (hidx : idx + seq.length ≤ s.length) :
    ∀ (d t : Nat), seq.length - t ≤ d → t ≤ seq.length →
      bruteInner s seq idx t =
        .ok (decide (∀ u, t ≤ u → u < seq.length → seq[u]? = s[idx + u]?)) := by
  intro d
  induction d with
  | zero =>
    intro t hd ht
    have htm : t = seq.length := by omega
    rw [bruteInner]
    rw [if_neg (by omega)]
    have hP : ∀ u, t ≤ u → u < seq.length → seq[u]? = s[idx + u]? := by
      intro u hu hul; omega
    rw [decide_eq_true hP]
  | succ d ih =>
    intro t hd ht
    rw [bruteInner]
    by_cases htl : t < seq.length
    · rw [if_pos htl]
      obtain ⟨a, ha, ha'⟩ := readL_ok_of_lt s ((idx : Int) + (t : Int))
        (by omega) (by omega)
      obtain ⟨b, hb, hb'⟩ := readL_ok_of_lt seq (t : Int) (by omega) (by omega)
      have hia : ((idx : Int) + (t : Int)).toNat = idx + t := by omega
      have hib : ((t : Int)).toNat = t := by omega
      rw [hia] at ha'; rw [hib] at hb'
      rw [ha, eBind_ok, hb, eBind_ok]
      by_cases hab : a = b
      · rw [if_neg (by simp [hab])]
        rw [ih (t + 1) (by omega) (by omega)]
        congr 1
        rw [decide_eq_decide]
        constructor
        · intro hP u hu hul
          rcases Nat.lt_or_ge t u with h | h
          · exact hP u h hul
          · have hut : u = t := by omega
            subst hut
            rw [hb', ha', hab]
        · intro hP u hu hul
          exact hP u (by omega) hul
      · rw [if_pos (by simp [hab])]
        have hnP : ¬ (∀ u, t ≤ u → u < seq.length → seq[u]? = s[idx + u]?) := by
          intro hP
          have := hP t le_rfl htl
          rw [hb', ha'] at this
          exact hab (Option.some.injEq _ _ ▸ this).symm
        rw [decide_eq_false hnP]
    · rw [if_neg htl]
      have hP : ∀ u, t ≤ u → u < seq.length → seq[u]? = s[idx + u]? := by
        intro u hu hul; omega
      rw [decide_eq_true hP]

theorem bruteOuter_ok [DecidableEq T] (s seq : List T) (hm : 1 ≤ seq.length) :
    ∀ (d idx : Nat), s.length - idx ≤ d →
      (∀ j', j' < idx → ¬ occursAtN s seq j') →
      bruteOuter s seq idx = .ok (decide (occursIn s seq)) := by
  intro d
  induction d with
  | zero =>
    intro idx hd hNo
    rw [bruteOuter, if_neg (by omega)]
    have : ¬ occursIn s seq := by
      rintro ⟨j, hj⟩
      have h1 := hj.1
      exact hNo j (by omega) hj
    rw [decide_eq_false this]
  | succ d ih =>
    intro idx hd hNo
    rw [bruteOuter]
    by_cases hin : idx < s.length
    · rw [if_pos hin]
      by_cases hbrk : (s.length : Int) - (idx : Int) < (seq.length : Int)
      · rw [if_pos hbrk]
        have : ¬ occursIn s seq := by
          rintro ⟨j, hj⟩
          have h1 := hj.1
          rcases Nat.lt_or_ge j idx with h | h
          · exact hNo j h hj
          · omega
        rw [decide_eq_false this]
      · rw [if_neg hbrk]
        have hidx : idx + seq.length ≤ s.length := by omega
        rw [bruteInner_ok s seq idx hidx seq.length 0 (by omega) (by omega),
          eBind_ok]
        by_cases hQ : ∀ u, 0 ≤ u → u < seq.length → seq[u]? = s[idx + u]?
        · rw [decide_eq_true hQ]
          simp only [if_true]
          have : occursIn s seq :=
            ⟨idx, hidx, fun t htl => hQ t (by omega) htl⟩
          rw [decide_eq_true this]
        · rw [decide_eq_false hQ]
          simp only [Bool.false_eq_true, if_false]
          refine ih (idx + 1) (by omega) ?_
          intro j' hj'
          rcases Nat.lt_or_ge j' idx with h | h
          · exact hNo j' h
          · have hj'idx : j' = idx := by omega
            subst hj'idx
            rintro ⟨h1, h2⟩
            exact hQ fun u _ hul => h2 u hul
    · rw [if_neg hin]
      have : ¬ occursIn s seq := by
        rintro ⟨j, hj⟩
        have h1 := hj.1
        exact hNo j (by omega) hj
      rw [decide_eq_false this]

theorem bruteForceSearch_ok [DecidableEq T] (s seq : List T)
    (h : 1 ≤ seq.length ∨ 1 ≤ s.length) :
    bruteForceSearch s seq = .ok (decide (occursIn s seq)) := by
  rcases Nat.lt_or_ge 0 seq.length with hm | hm
  · exact bruteOuter_ok s seq hm s.length 0 (by omega) (by omega)
  · have hm0 : seq.length = 0 := by omega
    have hs : 1 ≤ s.length := by omega
    unfold bruteForceSearch
    rw [bruteOuter, if_pos (by omega), if_neg (by omega)]
    rw [bruteInner, if_neg (by omega), eBind_ok]
    simp only [if_true]
    have : occursIn s seq := by
      refine ⟨0, by omega, ?_⟩
      intro t htl; omega
    rw [decide_eq_true this]

/-! ## Dispatch-level facts about `ContainsSequence` -/

theorem containsSequence_too_long [DecidableEq T] (s seq : List T)
    (opts : List ContainsSequenceOpt) (fuel : Nat)
    (h : s.length < seq.length) :
    ContainsSequence s seq opts fuel = .ok false := by
  unfold ContainsSequence
  rw [if_pos h]

theorem containsSequence_nil_pattern [DecidableEq T] (s : List T)
    (opts : List ContainsSequenceOpt) (fuel : Nat) :
    ContainsSequence s ([] : List T) opts fuel = .ok true := by
  simp [ContainsSequence]

theorem containsSequence_one_pattern [DecidableEq T] (s : List T) (x : T)
    (opts : List ContainsSequenceOpt) (fuel : Nat) :
    ContainsSequence s [x] opts fuel = .ok (Contains s x) := by
  unfold ContainsSequence
  by_cases hs : s.length < 1
  · rw [if_pos (by simpa using hs)]
    have : s = [] := by
      cases s with
      | nil => rfl
      | cons a l => simp at hs
    subst this
    rfl
  · rw [if_neg (by simpa using hs), if_neg (by simp), if_pos (by simp)]
    obtain ⟨a, ha, ha'⟩ := readL_ok_of_lt [x] 0 (by omega) (by simp)
    rw [ha, eBind_ok]
    simp only [Int.toNat_zero, List.getElem?_cons_zero, Option.some.injEq] at ha'
    rw [ha']

theorem containsSequence_dispatch [DecidableEq T] (s seq : List T)
    (opts : List ContainsSequenceOpt) (fuel : Nat)
    (h2 : 2 ≤ seq.length) (hn : seq.length ≤ s.length) :
    ContainsSequence s seq opts fuel =
      if (resolveArgs opts).searchAlgorithm = containsSequenceApostolicoCrochemore then
        apostolicoCrochemoreSearch s seq fuel
      else bruteForceSearch s seq := by
  unfold ContainsSequence
  rw [if_neg (by omega), if_neg (by omega), if_neg (by omega)]

/-! ## Border lemmas -/

theorem isBorder_zero (seq : List T) {x : Nat} (hx : 0 < x) : IsBorder seq x 0 :=
  ⟨hx, fun t ht => absurd ht (by omega)⟩

theorem isBorder_trans {seq : List T} {i j b : Nat}
    (hb : IsBorder seq j b) (hj : IsBorder seq i j) : IsBorder seq i b := by
  obtain ⟨hbj, hb2⟩ := hb
  obtain ⟨hji, hj2⟩ := hj
  refine ⟨by omega, ?_⟩
  intro t ht
  have h1 := hb2 t ht
  have h2 := hj2 (j - b + t) (by omega)
  have hidx : i - j + (j - b + t) = i - b + t := by omega
  rw [hidx] at h2
  rw [h1, h2]

theorem isBorder_shrink {seq : List T} {i y b : Nat}
    (hbi : IsBorder seq i b) (hyi : IsBorder seq i y) (hby : b < y) :
    IsBorder seq y b := by
  obtain ⟨hb1, hb2⟩ := hbi
  obtain ⟨hy1, hy2⟩ := hyi
  refine ⟨hby, ?_⟩
  intro t ht
  have h1 := hb2 t ht
  have h2 := hy2 (y - b + t) (by omega)
  have hidx : i - y + (y - b + t) = i - b + t := by omega
  rw [hidx] at h2
  rw [h1, ← h2]

theorem isBorder_extend {seq : List T} {x b : Nat}
    (hb : IsBorder seq x b) (heq : seq[b]? = seq[x]?) :
    IsBorder seq (x + 1) (b + 1) := by
  obtain ⟨hb1, hb2⟩ := hb
  refine ⟨by omega, ?_⟩
  intro t ht
  rcases Nat.lt_or_ge t b with h | h
  · have := hb2 t h
    have hidx : x - b + t = x + 1 - (b + 1) + t := by omega
    rw [hidx] at this
    exact this
  · have htb : t = b := by omega
    subst htb
    have hidx : x = x + 1 - (t + 1) + t := by omega
    rw [hidx] at heq
    exact heq

theorem isBorder_unextend {seq : List T} {x b : Nat}
    (hb : IsBorder seq (x + 1) (b + 1)) :
    IsBorder seq x b ∧ seq[b]? = seq[x]? := by
  obtain ⟨hb1, hb2⟩ := hb
  refine ⟨⟨by omega, ?_⟩, ?_⟩
  · intro t ht
    have := hb2 t (by omega)
    have hidx : x + 1 - (b + 1) + t = x - b + t := by omega
    rw [hidx] at this
    exact this
  · have := hb2 b (by omega)
    have hidx : x + 1 - (b + 1) + b = x := by omega
    rw [hidx] at this
    exact this

/-! ## Facts about `IsStrongNext` -/

theorem isStrongNext_le {seq : List T} {i : Nat} {q : Int}
    (h : IsStrongNext seq i q) : q ≤ (i : Int) - 1 := by
  rcases h.2.1 with h1 | h1
  · omega
  · have := h1.1.1
    omega

theorem isStrongNext_zero {seq : List T} {q : Int}
    (h : IsStrongNext seq 0 q) : q = -1 := by
  rcases h.2.1 with h1 | h1
  · exact h1
  · exact absurd h1.1.1 (by omega)

theorem isStrongNext_unique {seq : List T} {i : Nat} {q q' : Int}
    (h : IsStrongNext seq i q) (h' : IsStrongNext seq i q') : q = q' := by
  rcases h.2.1 with h1 | h1 <;> rcases h'.2.1 with h2 | h2
  · omega
  · have := h.2.2 _ h2
    have := h'.1
    omega
  · have := h'.2.2 _ h1
    have := h.1
    omega
  · have ha := h.2.2 _ h2
    have hb := h'.2.2 _ h1
    have := h.1
    have := h'.1
    omega

/-! ## The period prefix `ell` -/

theorem run_of_pairs {seq : List T} {e : Nat}
    (h : ∀ t, 1 ≤ t → t < e → seq[t - 1]? = seq[t]?) :
    ∀ t, t < e → seq[t]? = seq[0]? := by
  intro t
  induction t with
  | zero => intro _; rfl
  | succ t ih =>
    intro ht
    have h1 := h (t + 1) (by omega) ht
    simp only [Nat.add_sub_cancel] at h1
    rw [← h1]
    exact ih (by omega)

theorem ellLoop_ok [DecidableEq T] (seq : List T) :
    ∀ (f e0 : Nat), 1 ≤ e0 → e0 ≤ seq.length → seq.length - e0 < f →
      (∀ t, 1 ≤ t → t < e0 → seq[t - 1]? = seq[t]?) →
      ∃ e, ellLoop seq f e0 = .ok e ∧ e0 ≤ e ∧ e ≤ seq.length ∧
        (∀ t, 1 ≤ t → t < e → seq[t - 1]? = seq[t]?) ∧
        (e = seq.length ∨ seq[e - 1]? ≠ seq[e]?) := by
  intro f
  induction f with
  | zero => intro e0 h1 h2 h3 h4; omega
  | succ f ih =>
    intro e0 h1 h2 h3 h4
    rw [ellLoop]
    by_cases hlt : e0 < seq.length
    · rw [if_pos hlt]
      obtain ⟨a, ha, ha'⟩ := readL_ok_of_lt seq ((e0 : Int) - 1) (by omega) (by omega)
      obtain ⟨b, hb, hb'⟩ := readL_ok_of_lt seq (e0 : Int) (by omega) (by omega)
      have hia : ((e0 : Int) - 1).toNat = e0 - 1 := by omega
      have hib : ((e0 : Int)).toNat = e0 := by omega
      rw [hia] at ha'; rw [hib] at hb'
      rw [ha, eBind_ok, hb, eBind_ok]
      by_cases hab : a = b
      · rw [if_pos hab]
        refine (ih (e0 + 1) (by omega) (by omega) (by omega) ?_).imp ?_
        · intro t ht1 ht2
          rcases Nat.lt_or_ge t e0 with h | h
          · exact h4 t ht1 h
          · have : t = e0 := by omega
            subst this
            rw [ha', hb', hab]
        · intro e he
          exact ⟨he.1, by omega, he.2.2⟩
      · rw [if_neg hab]
        refine ⟨e0, rfl, le_rfl, by omega, h4, Or.inr ?_⟩
        rw [ha', hb']
        simp only [ne_eq, Option.some.injEq]
        exact hab
    · rw [if_neg hlt]
      exact ⟨e0, rfl, le_rfl, by omega, h4, Or.inl (by omega)⟩

theorem computeEll_ok [DecidableEq T] (seq : List T) (fuel : Nat)
    (hm : 1 ≤ seq.length) (hf : seq.length ≤ fuel) :
    ∃ ell, computeEll seq fuel = .ok ell ∧ EllProps seq ell ∧ ell < seq.length := by
  obtain ⟨e, he, he1, he2, he3, he4⟩ :=
    ellLoop_ok seq fuel 1 le_rfl hm (by omega) (by omega)
  unfold computeEll
  rw [he, eBind_ok]
  by_cases hem : e = seq.length
  · rw [if_pos hem]
    exact ⟨0, rfl, Or.inl rfl, by omega⟩
  · rw [if_neg hem]
    have helt : e < seq.length := by omega
    have hrun := run_of_pairs he3
    refine ⟨e, rfl, Or.inr ⟨he1, helt, hrun, ?_⟩, helt⟩
    rcases he4 with h | h
    · omega
    · intro hcon
      exact h (by rw [hrun (e - 1) (by omega), ← hcon])

theorem ellLoop_eq_specEllLoop [DecidableEq T] (seq : List T) :
    ∀ (f e0 : Nat), 1 ≤ e0 → seq.length - e0 < f →
      ellLoop seq f e0 = .ok (specEllLoop seq e0) := by
  intro f
  induction f with
  | zero => intro e0 h1 h2; omega
  | succ f ih =>
    intro e0 h1 h2
    rw [ellLoop, specEllLoop]
    by_cases hlt : e0 < seq.length
    · rw [if_pos hlt]
      obtain ⟨a, ha, ha'⟩ := readL_ok_of_lt seq ((e0 : Int) - 1) (by omega) (by omega)
      obtain ⟨b, hb, hb'⟩ := readL_ok_of_lt seq (e0 : Int) (by omega) (by omega)
      have hia : ((e0 : Int) - 1).toNat = e0 - 1 := by omega
      have hib : ((e0 : Int)).toNat = e0 := by omega
      rw [hia] at ha'; rw [hib] at hb'
      rw [ha, eBind_ok, hb, eBind_ok]
      by_cases hab : a = b
      · rw [if_pos hab, if_pos ⟨hlt, by rw [ha', hb', hab]⟩]
        exact ih (e0 + 1) (by omega) (by omega)
      · rw [if_neg hab, if_neg ?_]
        rintro ⟨-, hcon⟩
        rw [ha', hb'] at hcon
        exact hab (by simpa using hcon)
    · rw [if_neg hlt, if_neg (by rintro ⟨hcon, -⟩; omega)]

theorem computeEll_eq_specEll [DecidableEq T] (seq : List T) (fuel : Nat)
    (hm : 1 ≤ seq.length) (hf : seq.length ≤ fuel) :
    computeEll seq fuel = .ok (specEll seq) := by
  unfold computeEll specEll
  rw [ellLoop_eq_specEllLoop seq fuel 1 le_rfl (by omega), eBind_ok]
  by_cases h : specEllLoop seq 1 = seq.length
  · rw [if_pos h, if_pos h]
  · rw [if_neg h, if_neg h]

/-! ## Correctness of the `kmpNext` construction -/

theorem fallbackLoop_ok [DecidableEq T] (seq : List T) (kmp : List Int) (xN : Nat)
    (hx : xN < seq.length) (hKlen : kmp.length = seq.length + 1)
    (hfill : ∀ i, i ≤ xN → ∀ qq, kmp[i]? = some qq → IsStrongNext seq i qq) :
    ∀ (f : Nat) (y : Int), -1 ≤ y → y < (xN : Int) →
      (0 ≤ y → IsBorder seq xN y.toNat) →
      (∀ b : Nat, IsBorder seq xN b → seq[b]? = seq[xN]? → (b : Int) ≤ y) →
      1 ≤ f → (0 ≤ y → y.toNat + 2 ≤ f) →
      ∃ y₀, fallbackLoop seq kmp (xN : Int) f y = .ok y₀ ∧ -1 ≤ y₀ ∧ y₀ ≤ y ∧
        IsMaxGoodBorder seq xN y₀ := by
  intro f
  induction f with
  | zero => intro y _ _ _ _ h1 _; omega
  | succ f ih =>
    intro y hy1 hy2 hyb hymax h1 h2
    rw [fallbackLoop]
    by_cases hypos : y > -1
    case neg =>
      have hy : y = -1 := by omega
      rw [if_neg hypos]
      refine ⟨y, rfl, by omega, le_rfl, Or.inl ⟨hy, ?_⟩⟩
      intro b hb hgood
      have := hymax b hb hgood
      omega
    case pos =>
      rw [if_pos hypos, if_neg (show ¬((xN : Int) = (seq.length : Int)) by omega)]
      have hy0 : 0 ≤ y := by omega
      have hytn : y.toNat < xN := by omega
      obtain ⟨a, ha, ha'⟩ := readL_ok_of_lt seq (xN : Int) (by omega) (by omega)
      obtain ⟨b, hb, hb'⟩ := readL_ok_of_lt seq y (by omega) (by omega)
      have hia : ((xN : Int)).toNat = xN := by omega
      rw [hia] at ha'
      rw [ha, eBind_ok, hb, eBind_ok]
      by_cases hab : a = b
      · rw [if_neg (by simp [hab])]
        refine ⟨y, rfl, by omega, le_rfl, Or.inr ⟨hy0, hyb hy0, ?_, hymax⟩⟩
        rw [hb', ha', hab]
      · rw [if_pos hab]
        obtain ⟨y', hky, hky'⟩ := readL_ok_of_lt kmp y (by omega) (by omega)
        rw [hky, eBind_ok]
        have hq : IsStrongNext seq y.toNat y' := hfill y.toNat (by omega) y' hky'
        have hy'le : y' ≤ (y.toNat : Int) - 1 := isStrongNext_le hq
        have hborder_y : IsBorder seq xN y.toNat := hyb hy0
        have hyb' : 0 ≤ y' → IsBorder seq xN y'.toNat := by
          intro hy'0
          rcases hq.2.1 with hcon | hstrong
          · omega
          · exact isBorder_trans hstrong.1 hborder_y
        have hymax' : ∀ bb : Nat, IsBorder seq xN bb → seq[bb]? = seq[xN]? →
            (bb : Int) ≤ y' := by
          intro bb hbb hgood
          have hbley : (bb : Int) ≤ y := hymax bb hbb hgood
          have hbb_ne : bb ≠ y.toNat := by
            intro hcon
            rw [hcon, hb'] at hgood
            rw [ha'] at hgood
            have hba : b = a := Option.some.inj hgood
            exact hab hba.symm
          have hbb_lt : bb < y.toNat := by omega
          have hbb_y : IsBorder seq y.toNat bb := isBorder_shrink hbb hborder_y hbb_lt
          refine hq.2.2 bb ⟨hbb_y, Or.inr ?_⟩
          rw [hgood, ha', hb']
          simp only [ne_eq, Option.some.injEq]
          exact hab
        obtain ⟨y₀, hrec, hy₀1, hy₀2, hy₀3⟩ :=
          ih y' hq.1 (by omega) hyb' hymax' (by omega) (by omega)
        exact ⟨y₀, hrec, hy₀1, by omega, hy₀3⟩

theorem maxBorder_extend {seq : List T} {xN : Nat} {y₀ : Int}
    (h : IsMaxGoodBorder seq xN y₀) (hy₀ : -1 ≤ y₀) (hlt : y₀ < (xN : Int)) :
    IsMaxBorder seq (xN + 1) (y₀ + 1) := by
  refine Or.inr ⟨by omega, ?_, ?_⟩
  · rcases h with ⟨hneg, -⟩ | ⟨h0, hbord, hgood, -⟩
    · have : (y₀ + 1).toNat = 0 := by omega
      rw [this]
      exact isBorder_zero seq (by omega)
    · have hext := isBorder_extend hbord hgood
      have : (y₀ + 1).toNat = y₀.toNat + 1 := by omega
      rw [this]
      exact hext
  · intro b hb
    cases b with
    | zero => omega
    | succ b' =>
      obtain ⟨hb', hgood'⟩ := isBorder_unextend hb
      rcases h with ⟨-, hnone⟩ | ⟨-, -, -, hmax⟩
      · exact absurd hgood' (hnone b' hb')
      · have := hmax b' hb' hgood'
        omega

theorem strongNext_write_plain {seq : List T} {xN : Nat} {y' : Int}
    (hwf : IsMaxBorder seq (xN + 1) y') (hy' : 0 ≤ y')
    (hcond : xN + 1 = seq.length ∨ seq[y'.toNat]? ≠ seq[xN + 1]?) :
    IsStrongNext seq (xN + 1) y' := by
  rcases hwf with ⟨hcon, -⟩ | ⟨h0, hbord, hmax⟩
  · omega
  · refine ⟨by omega, Or.inr ⟨hbord, hcond⟩, ?_⟩
    intro b hb
    exact hmax b hb.1

theorem strongNext_write_collapse {seq : List T} {xN : Nat} {y' v : Int}
    (hwf : IsMaxBorder seq (xN + 1) y') (hy' : 0 ≤ y')
    (hxm : xN + 1 < seq.length) (hy'x : y'.toNat < xN + 1)
    (hchar : seq[xN + 1]? = seq[y'.toNat]?)
    (hqv : IsStrongNext seq y'.toNat v) :
    IsStrongNext seq (xN + 1) v := by
  rcases hwf with ⟨hcon, -⟩ | ⟨h0, hbord, hmax⟩
  · omega
  refine ⟨hqv.1, ?_, ?_⟩
  · rcases hqv.2.1 with hneg | hstrong
    · exact Or.inl hneg
    · refine Or.inr ⟨isBorder_trans hstrong.1 hbord, Or.inr ?_⟩
      rcases hstrong.2 with hcon | hne
      · omega
      · rw [hchar]
        exact hne
  · intro b hb
    obtain ⟨hbb, hbs⟩ := hb
    have hbs' : seq[b]? ≠ seq[xN + 1]? := by
      rcases hbs with hcon | hne
      · omega
      · exact hne
    have hble : (b : Int) ≤ y' := hmax b hbb
    have hbne : b ≠ y'.toNat := by
      intro hcon
      rw [hcon] at hbs'
      exact hbs' hchar.symm
    have hblt : b < y'.toNat := by omega
    have hby' : IsBorder seq y'.toNat b := isBorder_shrink hbb hbord hblt
    refine hqv.2.2 b ⟨hby', Or.inr ?_⟩
    intro hcon
    rw [hcon] at hbs'
    exact hbs' hchar.symm

theorem buildLoop_ok [DecidableEq T] (seq : List T) :
    ∀ (f : Nat) (xN : Nat) (y : Int) (kmp : List Int),
      kmp.length = seq.length + 1 → xN ≤ seq.length →
      (∀ i, i ≤ xN → ∀ qq, kmp[i]? = some qq → IsStrongNext seq i qq) →
      IsMaxBorder seq xN y →
      2 * seq.length + 1 ≤ f + xN →
      ∃ kmpF, buildLoop seq f (xN : Int) y kmp = .ok kmpF ∧
        kmpF.length = seq.length + 1 ∧
        (∀ i, i ≤ seq.length → ∀ qq, kmpF[i]? = some qq → IsStrongNext seq i qq) := by
  intro f
  induction f with
  | zero => intro xN y kmp _ hxm _ _ hfuel; omega
  | succ f ih =>
    intro xN y kmp hKlen hxm hfill hwf hfuel
    rw [buildLoop]
    by_cases hlt : xN < seq.length
    case neg =>
      rw [if_neg (show ¬((xN : Int) < (seq.length : Int)) by omega)]
      have hxeq : xN = seq.length := by omega
      subst hxeq
      exact ⟨kmp, rfl, hKlen, hfill⟩
    case pos =>
      rw [if_pos (show (xN : Int) < (seq.length : Int) by omega)]
      -- facts about y from the max-border invariant
      have hy1 : -1 ≤ y := by
        rcases hwf with ⟨-, h⟩ | ⟨h, -, -⟩ <;> omega
      have hy2 : y < (xN : Int) := by
        rcases hwf with ⟨h, h'⟩ | ⟨h0, hb, -⟩
        · omega
        · have := hb.1; omega
      obtain ⟨y₀, hfb, hy₀1, hy₀2, hgood⟩ :=
        fallbackLoop_ok seq kmp xN hlt hKlen hfill (f + 1) y hy1 hy2
          (by
            intro h0
            rcases hwf with ⟨-, hcon⟩ | ⟨-, hb, -⟩
            · omega
            · exact hb)
          (by
            intro b hb _
            rcases hwf with ⟨hx0, -⟩ | ⟨-, -, hmax⟩
            · have := hb.1; omega
            · exact hmax b hb)
          (by omega) (by omega)
      rw [hfb, eBind_ok]
      have hwf' : IsMaxBorder seq (xN + 1) (y₀ + 1) := maxBorder_extend hgood hy₀1 (by omega)
      have hy'0 : 0 ≤ y₀ + 1 := by omega
      have hy'lt : (y₀ + 1).toNat ≤ xN := by omega
      -- evaluate the conditional computing the value to write
      have hvmain : ∃ v : Int,
          (if (xN : Int) + 1 ≠ (seq.length : Int) then
            eBind (readL seq ((xN : Int) + 1)) fun a =>
            eBind (readL seq (y₀ + 1)) fun b =>
            if a = b then readL kmp (y₀ + 1) else .ok (y₀ + 1)
          else .ok (y₀ + 1)) = .ok v ∧ IsStrongNext seq (xN + 1) v := by
        by_cases hxe : xN + 1 = seq.length
        · rw [if_neg (show ¬((xN : Int) + 1 ≠ (seq.length : Int)) by omega)]
          exact ⟨y₀ + 1, rfl, strongNext_write_plain hwf' hy'0 (Or.inl hxe)⟩
        · rw [if_pos (show (xN : Int) + 1 ≠ (seq.length : Int) by omega)]
          have hx1m : xN + 1 < seq.length := by omega
          obtain ⟨a, ha, ha'⟩ := readL_ok_of_lt seq ((xN : Int) + 1) (by omega) (by omega)
          obtain ⟨b, hb, hb'⟩ := readL_ok_of_lt seq (y₀ + 1) (by omega) (by omega)
          have hia : ((xN : Int) + 1).toNat = xN + 1 := by omega
          rw [hia] at ha'
          rw [ha, eBind_ok, hb, eBind_ok]
          by_cases hab : a = b
          · rw [if_pos hab]
            obtain ⟨v, hkv, hkv'⟩ := readL_ok_of_lt kmp (y₀ + 1) (by omega) (by omega)
            have hqv : IsStrongNext seq (y₀ + 1).toNat v :=
              hfill (y₀ + 1).toNat (by omega) v hkv'
            refine ⟨v, hkv, ?_⟩
            refine strongNext_write_collapse hwf' hy'0 hx1m (by omega) ?_ hqv
            rw [ha', hb', hab]
          · rw [if_neg hab]
            refine ⟨y₀ + 1, rfl, ?_⟩
            refine strongNext_write_plain hwf' hy'0 (Or.inr ?_)
            rw [ha', hb']
            simp only [ne_eq, Option.some.injEq]
            exact fun hcon => hab hcon.symm
      obtain ⟨v, hv, hvs⟩ := hvmain
      rw [hv, eBind_ok]
      have hwr : writeL kmp ((xN : Int) + 1) v = .ok (kmp.set xN.succ v) := by
        have := writeL_ok_of_lt kmp ((xN : Int) + 1) v (by omega) (by omega)
        have hin : ((xN : Int) + 1).toNat = xN.succ := by omega
        rw [hin] at this
        exact this
      rw [hwr, eBind_ok]
      have hfill' : ∀ i, i ≤ xN + 1 → ∀ qq, (kmp.set xN.succ v)[i]? = some qq →
          IsStrongNext seq i qq := by
        intro i hi qq hqq
        rcases Nat.lt_or_ge i (xN + 1) with h | h
        · rw [List.getElem?_set_ne (by omega)] at hqq
          exact hfill i (by omega) qq hqq
        · have hieq : i = xN + 1 := by omega
          subst hieq
          rw [List.getElem?_set_self (by omega)] at hqq
          cases hqq
          exact hvs
      have hcast : ((xN : Int) + 1) = ((xN + 1 : Nat) : Int) := by omega
      rw [hcast]
      exact ih (xN + 1) (y₀ + 1) (kmp.set xN.succ v)
        (by rw [List.length_set]; exact hKlen) (by omega) hfill' hwf' (by omega)

theorem kmpNextOf_ok [DecidableEq T] (seq : List T) (fuel : Nat)
    (hf : 2 * seq.length + 1 ≤ fuel) :
    ∃ kmp, kmpNextOf seq fuel = .ok kmp ∧ kmp.length = seq.length + 1 ∧
      (∀ i, i ≤ seq.length → ∀ qq, kmp[i]? = some qq → IsStrongNext seq i qq) := by
  unfold kmpNextOf
  have hw : writeL (List.replicate (seq.length + 1) 0) 0 (-1) =
      .ok ((List.replicate (seq.length + 1) (0 : Int)).set 0 (-1)) := by
    have := writeL_ok_of_lt (List.replicate (seq.length + 1) (0 : Int)) 0 (-1)
      (by omega) (by simp)
    simpa using this
  rw [hw, eBind_ok]
  have hfill0 : ∀ i, i ≤ 0 → ∀ qq,
      ((List.replicate (seq.length + 1) (0 : Int)).set 0 (-1))[i]? = some qq →
      IsStrongNext seq i qq := by
    intro i hi qq hqq
    have hieq : i = 0 := by omega
    subst hieq
    rw [List.getElem?_set_self (by simp)] at hqq
    cases hqq
    refine ⟨le_rfl, Or.inl rfl, ?_⟩
    intro b hb
    have := hb.1.1
    omega
  have := buildLoop_ok seq fuel 0 (-1)
    ((List.replicate (seq.length + 1) (0 : Int)).set 0 (-1))
    (by rw [List.length_set, List.length_replicate]) (by omega) hfill0
    (Or.inl ⟨rfl, rfl⟩) (by omega)
  simpa using this

/-! ## The scan phases -/

theorem suffixLoop_ok [DecidableEq T] (s seq : List T) (jN : Nat)
    (hj : jN + seq.length ≤ s.length) :
    ∀ (f iN : Nat), iN ≤ seq.length → seq.length - iN < f →
      ∃ i₁ : Nat, suffixLoop s seq (jN : Int) f (iN : Int) = .ok (i₁ : Int) ∧
        iN ≤ i₁ ∧ i₁ ≤ seq.length ∧
        (∀ t, iN ≤ t → t < i₁ → seq[t]? = s[jN + t]?) ∧
        (i₁ = seq.length ∨ seq[i₁]? ≠ s[jN + i₁]?) := by
  intro f
  induction f with
  | zero => intro iN h1 h2; omega
  | succ f ih =>
    intro iN h1 h2
    rw [suffixLoop]
    by_cases hlt : iN < seq.length
    case neg =>
      rw [if_neg (show ¬((iN : Int) < (seq.length : Int)) by omega)]
      exact ⟨iN, rfl, le_rfl, h1, by omega, Or.inl (by omega)⟩
    case pos =>
      rw [if_pos (show (iN : Int) < (seq.length : Int) by omega)]
      obtain ⟨a, ha, ha'⟩ := readL_ok_of_lt seq (iN : Int) (by omega) (by omega)
      obtain ⟨b, hb, hb'⟩ := readL_ok_of_lt s ((iN : Int) + (jN : Int)) (by omega) (by omega)
      have hia : ((iN : Int)).toNat = iN := by omega
      have hib : ((iN : Int) + (jN : Int)).toNat = jN + iN := by omega
      rw [hia] at ha'; rw [hib] at hb'
      rw [ha, eBind_ok, hb, eBind_ok]
      by_cases hab : a = b
      · rw [if_pos hab]
        have hcast : (iN : Int) + 1 = ((iN + 1 : Nat) : Int) := by omega
        rw [hcast]
        obtain ⟨i₁, hrec, hi1, hi2, hi3, hi4⟩ := ih (iN + 1) (by omega) (by omega)
        refine ⟨i₁, hrec, by omega, hi2, ?_, hi4⟩
        intro t ht1 ht2
        rcases Nat.lt_or_ge t (iN + 1) with h | h
        · have : t = iN := by omega
          subst this
          rw [ha', hb', hab]
        · exact hi3 t h ht2
      · rw [if_neg hab]
        refine ⟨iN, rfl, le_rfl, by omega, by omega, Or.inr ?_⟩
        rw [ha', hb']
        simp only [ne_eq, Option.some.injEq]
        exact hab

theorem prefixLoop_ok [DecidableEq T] (s seq : List T) (jN ell : Nat)
    (hj : jN + seq.length ≤ s.length) (hEm : ell ≤ seq.length) :
    ∀ (f kN : Nat), kN ≤ ell → ell - kN < f →
      ∃ k₁ : Nat, prefixLoop s seq (jN : Int) (ell : Int) f (kN : Int) = .ok (k₁ : Int) ∧
        kN ≤ k₁ ∧ k₁ ≤ ell ∧
        (∀ t, kN ≤ t → t < k₁ → seq[t]? = s[jN + t]?) ∧
        (k₁ = ell ∨ seq[k₁]? ≠ s[jN + k₁]?) := by
  intro f
  induction f with
  | zero => intro kN h1 h2; omega
  | succ f ih =>
    intro kN h1 h2
    rw [prefixLoop]
    by_cases hlt : kN < ell
    case neg =>
      rw [if_neg (show ¬((kN : Int) < (ell : Int)) by omega)]
      exact ⟨kN, rfl, le_rfl, h1, by omega, Or.inl (by omega)⟩
    case pos =>
      rw [if_pos (show (kN : Int) < (ell : Int) by omega)]
      obtain ⟨a, ha, ha'⟩ := readL_ok_of_lt seq (kN : Int) (by omega) (by omega)
      obtain ⟨b, hb, hb'⟩ := readL_ok_of_lt s ((jN : Int) + (kN : Int)) (by omega) (by omega)
      have hia : ((kN : Int)).toNat = kN := by omega
      have hib : ((jN : Int) + (kN : Int)).toNat = jN + kN := by omega
      rw [hia] at ha'; rw [hib] at hb'
      rw [ha, eBind_ok, hb, eBind_ok]
      by_cases hab : a = b
      · rw [if_pos hab]
        have hcast : (kN : Int) + 1 = ((kN + 1 : Nat) : Int) := by omega
        rw [hcast]
        obtain ⟨k₁, hrec, hk1, hk2, hk3, hk4⟩ := ih (kN + 1) (by omega) (by omega)
        refine ⟨k₁, hrec, by omega, hk2, ?_, hk4⟩
        intro t ht1 ht2
        rcases Nat.lt_or_ge t (kN + 1) with h | h
        · have : t = kN := by omega
          subst this
          rw [ha', hb', hab]
        · exact hk3 t h ht2
      · rw [if_neg hab]
        refine ⟨kN, rfl, le_rfl, by omega, by omega, Or.inr ?_⟩
        rw [ha', hb']
        simp only [ne_eq, Option.some.injEq]
        exact hab

/-! ## Auxiliary facts for the scan proof -/

/-- When `ell ≥ 1`, the strong failure value at position `ell` is
`ell - 1`: the periodic prefix shifts by exactly one. -/
theorem strongNext_at_ell {seq : List T} {ell : Nat} {q : Int}
    (hE : EllProps seq ell) (hell : 1 ≤ ell)
    (hq : IsStrongNext seq ell q) : q = (ell : Int) - 1 := by
  rcases hE with h0 | ⟨h1, h2, hrun, hdiff⟩
  · omega
  have hstrong : StrongAt seq ell (ell - 1) := by
    refine ⟨⟨by omega, ?_⟩, Or.inr ?_⟩
    · intro t ht
      rw [hrun t (by omega), hrun (ell - (ell - 1) + t) (by omega)]
    · rw [hrun (ell - 1) (by omega)]
      intro hcon
      exact hdiff hcon.symm
  have hle := hq.2.2 (ell - 1) hstrong
  have hlt := isStrongNext_le hq
  omega

/-- A nonempty border of a prefix extending beyond the maximal initial
run has period at least `ell`. -/
theorem border_period_ge_ell {seq : List T} {ell i b : Nat}
    (hE : EllProps seq ell) (h1 : 1 ≤ ell) (hib : IsBorder seq i b)
    (hb1 : 1 ≤ b) (hil : ell < i) :
    ell ≤ i - b := by
  rcases hE with h0 | ⟨-, h2, hrun, hdiff⟩
  · omega
  by_contra hcon
  push_neg at hcon
  have hbi := hib.1
  have ht : ell - (i - b) < b := by omega
  have heq := hib.2 (ell - (i - b)) ht
  have hidx : i - b + (ell - (i - b)) = ell := by omega
  rw [hidx] at heq
  rw [hrun (ell - (i - b)) (by omega)] at heq
  exact hdiff heq.symm

/-- After a shift by the period `i₁ - b` of a nonempty border `b`, the
first `b` characters of the pattern match the haystack at the new
alignment. -/
theorem inv_shift {s seq : List T} {ell i₁ jN bN : Nat}
    (hE : EllProps seq ell) (hb : IsBorder seq i₁ bN) (hb1 : 1 ≤ bN)
    (hell : ell < i₁)
    (hSuf : ∀ t, ell ≤ t → t < i₁ → seq[t]? = s[jN + t]?) :
    ∀ t, t < bN → seq[t]? = s[jN + (i₁ - bN) + t]? := by
  have hper : ell ≤ i₁ - bN := by
    rcases Nat.eq_zero_or_pos ell with h0 | h1
    · omega
    · exact border_period_ge_ell hE h1 hb hb1 hell
  intro t ht
  have hbi := hb.1
  have hidx := hb.2 t ht
  have hin : ell ≤ i₁ - bN + t := by omega
  have hin2 : i₁ - bN + t < i₁ := by omega
  rw [hidx, hSuf _ hin hin2]
  have heq : jN + (i₁ - bN + t) = jN + (i₁ - bN) + t := by omega
  rw [heq]

/-- After a shift by one inside the periodic prefix, the decremented
prefix-match count is still justified. -/
theorem invP_case_ell {s seq : List T} {ell jN k₁ : Nat}
    (hE : EllProps seq ell) (hk : k₁ ≤ ell)
    (hPre : ∀ t, t < k₁ → seq[t]? = s[jN + t]?) :
    ∀ t, t < k₁ - 1 → seq[t]? = s[jN + 1 + t]? := by
  intro t ht
  rcases hE with h0 | ⟨-, -, hrun, -⟩
  · omega
  have h1 : seq[t]? = seq[t + 1]? := by
    rw [hrun t (by omega), hrun (t + 1) (by omega)]
  rw [h1, hPre (t + 1) (by omega)]
  have heq : jN + (t + 1) = jN + 1 + t := by omega
  rw [heq]

/-- Soundness of the alignment shift: no occurrence can start strictly
between the current alignment and the shifted one. -/
theorem skip_no_occ {s seq : List T} {ell i₁ jN : Nat} {q : Int}
    (hE : EllProps seq ell)
    (hi : ell ≤ i₁ ∧ i₁ ≤ seq.length)
    (hq : IsStrongNext seq i₁ q)
    (hSuf : ∀ t, ell ≤ t → t < i₁ → seq[t]? = s[jN + t]?)
    (hmis : i₁ < seq.length → seq[i₁]? ≠ s[jN + i₁]?) :
    ∀ d : Nat, 1 ≤ d → (d : Int) < (i₁ : Int) - q → ¬ occursAtN s seq (jN + d) := by
  intro d hd1 hd2 hocc
  obtain ⟨hoccle, hocc⟩ := hocc
  have hqle := isStrongNext_le hq
  have hq1 := hq.1
  have hdle : d ≤ i₁ := by omega
  have hborder : IsBorder seq i₁ (i₁ - d) := by
    refine ⟨by omega, ?_⟩
    intro t ht
    have hidx : i₁ - (i₁ - d) + t = d + t := by omega
    rw [hidx]
    rcases Nat.lt_or_ge (d + t) ell with hcase | hcase
    · rcases hE with h0 | ⟨-, -, hrun, -⟩
      · omega
      rw [hrun t (by omega), hrun (d + t) hcase]
    · have h1 := hSuf (d + t) hcase (by omega)
      have h2 := hocc t (by omega)
      rw [h2, h1]
      have heq : jN + d + t = jN + (d + t) := by omega
      rw [heq]
  rcases Nat.lt_or_ge i₁ seq.length with him | him
  · by_cases hsb : seq[i₁ - d]? = seq[i₁]?
    · have h2 := hocc (i₁ - d) (by omega)
      have hidx : jN + d + (i₁ - d) = jN + i₁ := by omega
      rw [hidx] at h2
      exact hmis him (by rw [← hsb, h2])
    · have hstrong : StrongAt seq i₁ (i₁ - d) := ⟨hborder, Or.inr hsb⟩
      have := hq.2.2 _ hstrong
      omega
  · have hstrong : StrongAt seq i₁ (i₁ - d) := ⟨hborder, Or.inl (by omega)⟩
    have := hq.2.2 _ hstrong
    omega

/-- Extending the no-earlier-occurrence invariant across one shift. -/
theorem hNo_extend {s seq : List T} {ell i₁ jN : Nat} {q : Int}
    (hE : EllProps seq ell)
    (hi : ell ≤ i₁ ∧ i₁ ≤ seq.length)
    (hq : IsStrongNext seq i₁ q)
    (hSuf : ∀ t, ell ≤ t → t < i₁ → seq[t]? = s[jN + t]?)
    (hmis : i₁ < seq.length → seq[i₁]? ≠ s[jN + i₁]?)
    (hnj : ¬ occursAtN s seq jN)
    (hNo : ∀ j', j' < jN → ¬ occursAtN s seq j') :
    ∀ j', j' < jN + ((i₁ : Int) - q).toNat → ¬ occursAtN s seq j' := by
  intro j' hj'
  have hqle := isStrongNext_le hq
  rcases lt_trichotomy j' jN with h | h | h
  · exact hNo j' h
  · subst h; exact hnj
  · have hd1 : 1 ≤ j' - jN := by omega
    have hd2 : ((j' - jN : Nat) : Int) < (i₁ : Int) - q := by omega
    have hres := skip_no_occ hE hi hq hSuf hmis (j' - jN) hd1 hd2
    have heq : jN + (j' - jN) = j' := by omega
    rw [heq] at hres
    exact hres

/-- Evaluating `advance` once the table entry at `i₁` is known. -/
theorem advance_eval {kmp : List Int} {i₁ : Nat} {q : Int} (ell j k : Int)
    (hlen : i₁ < kmp.length) (hread : kmp[i₁]? = some q) :
    advance kmp ell (i₁ : Int) j k =
      (if (i₁ : Int) = ell then
        .ok ((i₁ : Int), j + ((i₁ : Int) - q), if k - 1 > 0 then k - 1 else 0)
       else if q ≤ ell then
        .ok (ell, j + ((i₁ : Int) - q), if q > 0 then q else 0)
       else .ok (q, j + ((i₁ : Int) - q), ell)) := by
  unfold advance
  have hrd : readL kmp (i₁ : Int) = .ok q := by
    rw [readL_ok_iff]
    refine ⟨by omega, ?_⟩
    rw [(by omega : ((i₁ : Int)).toNat = i₁)]
    exact hread
  rw [hrd, eBind_ok]

theorem eBind_ok_scan [DecidableEq T] (s seq : List T) (kmp : List Int) (ell : Int)
    (f : Nat) (iv jv kv : Int) :
    eBind (Except.ok (iv, jv, kv))
      (fun st => scanLoop s seq kmp ell f st.1 st.2.1 st.2.2) =
      scanLoop s seq kmp ell f iv jv kv := rfl

theorem scanLoop_cast [DecidableEq T] (s seq : List T) (kmp : List Int) (ell : Int)
    (f : Nat) {iv jv kv : Int} {iN jN kN : Nat}
    (h1 : iv = (iN : Int)) (h2 : jv = (jN : Int)) (h3 : kv = (kN : Int)) :
    scanLoop s seq kmp ell f iv jv kv =
      scanLoop s seq kmp ell f (iN : Int) (jN : Int) (kN : Int) := by
  subst h1; subst h2; subst h3; rfl

/-- One advance step at `i₁ ≠ ell`: evaluating `advance` and the
recursive scan call yields the global answer. -/
theorem scan_advance_ne_ell [DecidableEq T] (s seq : List T) (kmp : List Int)
    (ell : Nat) (hKlen : kmp.length = seq.length + 1) (hE : EllProps seq ell)
    (f : Nat)
    (ih : ∀ (iN jN kN : Nat),
      ell ≤ iN → iN ≤ seq.length → kN ≤ ell →
      (∀ t, ell ≤ t → t < iN → seq[t]? = s[jN + t]?) →
      (∀ t, t < kN → seq[t]? = s[jN + t]?) →
      (∀ j', j' < jN → ¬ occursAtN s seq j') →
      s.length + 3 ≤ f + jN → 1 ≤ f →
      scanLoop s seq kmp (ell : Int) f (iN : Int) (jN : Int) (kN : Int) =
        .ok (decide (occursIn s seq)))
    (i₁ jN : Nat) (kv q : Int)
    (hq : IsStrongNext seq i₁ q) (hqread : kmp[i₁]? = some q)
    (hellt : ell < i₁) (hi2 : i₁ ≤ seq.length)
    (hjn : jN + seq.length ≤ s.length)
    (hSuf₁ : ∀ t, ell ≤ t → t < i₁ → seq[t]? = s[jN + t]?)
    (hmis : i₁ < seq.length → seq[i₁]? ≠ s[jN + i₁]?)
    (hnj : ¬ occursAtN s seq jN)
    (hNo : ∀ j', j' < jN → ¬ occursAtN s seq j')
    (hfuel : s.length + 2 ≤ f + jN) :
    eBind (advance kmp (ell : Int) (i₁ : Int) (jN : Int) kv)
      (fun st => scanLoop s seq kmp (ell : Int) f st.1 st.2.1 st.2.2) =
      .ok (decide (occursIn s seq)) := by
  have hqle' := isStrongNext_le hq
  have hq1 := hq.1
  rw [advance_eval (ell : Int) (jN : Int) kv (by omega) hqread]
  rw [if_neg (show ¬((i₁ : Int) = (ell : Int)) by omega)]
  have hNoE := hNo_extend hE ⟨by omega, hi2⟩ hq hSuf₁ hmis hnj hNo
  have hjcast : (jN : Int) + ((i₁ : Int) - q) =
      ((jN + ((i₁ : Int) - q).toNat : Nat) : Int) := by omega
  have hf1 : 1 ≤ f := by omega
  have hfj : s.length + 3 ≤ f + (jN + ((i₁ : Int) - q).toNat) := by omega
  by_cases hqle : q ≤ (ell : Int)
  · rw [if_pos hqle, eBind_ok_scan,
      scanLoop_cast s seq kmp (ell : Int) f rfl hjcast
        (show (if q > 0 then q else 0) = ((q.toNat : Nat) : Int) by split <;> omega)]
    refine ih ell (jN + ((i₁ : Int) - q).toNat) q.toNat le_rfl (by omega) (by omega)
      (fun t h1 h2 => absurd h1 (by omega)) ?_ hNoE hfj hf1
    intro t ht
    have hqpos : (1 : Int) ≤ q := by omega
    rcases hq.2.1 with hneg | hstr
    · omega
    · have hres := inv_shift hE hstr.1 (by omega) hellt hSuf₁ t ht
      have heq : jN + (i₁ - q.toNat) + t = jN + ((i₁ : Int) - q).toNat + t := by omega
      rw [heq] at hres
      exact hres
  · rw [if_neg hqle]
    have hq0 : (0 : Int) ≤ q := by omega
    rw [eBind_ok_scan,
      scanLoop_cast s seq kmp (ell : Int) f
        (show q = ((q.toNat : Nat) : Int) by omega) hjcast rfl]
    rcases hq.2.1 with hneg | hstr
    · omega
    have hqi : q.toNat < i₁ := hstr.1.1
    refine ih q.toNat (jN + ((i₁ : Int) - q).toNat) ell (by omega) (by omega) le_rfl
      ?_ ?_ hNoE hfj hf1
    · intro t h1 h2
      have hres := inv_shift hE hstr.1 (by omega) hellt hSuf₁ t h2
      have heq : jN + (i₁ - q.toNat) + t = jN + ((i₁ : Int) - q).toNat + t := by omega
      rw [heq] at hres
      exact hres
    · intro t ht
      have hres := inv_shift hE hstr.1 (by omega) hellt hSuf₁ t (by omega)
      have heq : jN + (i₁ - q.toNat) + t = jN + ((i₁ : Int) - q).toNat + t := by omega
      rw [heq] at hres
      exact hres

/-- The Apostolico-Crochemore scan decides occurrence, given a correct
failure table and period prefix. -/
theorem scanLoop_ok [DecidableEq T] (s seq : List T) (kmp : List Int) (ell : Nat)
    (hm : 2 ≤ seq.length) (hn : seq.length ≤ s.length)
    (hKlen : kmp.length = seq.length + 1)
    (hK : ∀ i, i ≤ seq.length → ∀ qq, kmp[i]? = some qq → IsStrongNext seq i qq)
    (hE : EllProps seq ell) (hEm : ell < seq.length) :
    ∀ (f iN jN kN : Nat),
      ell ≤ iN → iN ≤ seq.length → kN ≤ ell →
      (∀ t, ell ≤ t → t < iN → seq[t]? = s[jN + t]?) →
      (∀ t, t < kN → seq[t]? = s[jN + t]?) →
      (∀ j', j' < jN → ¬ occursAtN s seq j') →
      s.length + 3 ≤ f + jN → 1 ≤ f →
      scanLoop s seq kmp (ell : Int) f (iN : Int) (jN : Int) (kN : Int) =
        .ok (decide (occursIn s seq)) := by
  intro f
  induction f with
  | zero => intro iN jN kN _ _ _ _ _ _ _ h; omega
  | succ f ih =>
    intro iN jN kN hi1 hi2 hk hSuf hPre hNo hfuel hf1
    rw [scanLoop]
    by_cases hcond : (jN : Int) ≤ (s.length : Int) - (seq.length : Int)
    case neg =>
      rw [if_neg hcond]
      have hno : ¬ occursIn s seq := by
        rintro ⟨j', hj'⟩
        have := hj'.1
        exact hNo j' (by omega) hj'
      rw [decide_eq_false hno]
    case pos =>
      rw [if_pos hcond]
      have hjm : jN + seq.length ≤ s.length := by omega
      obtain ⟨i₁, hsfx, hi₁a, hi₁b, hi₁c, hi₁d⟩ :=
        suffixLoop_ok s seq jN hjm (f + 1) iN hi2 (by omega)
      rw [hsfx, eBind_ok]
      have hSuf₁ : ∀ t, ell ≤ t → t < i₁ → seq[t]? = s[jN + t]? := by
        intro t ht1 ht2
        rcases Nat.lt_or_ge t iN with h | h
        · exact hSuf t ht1 h
        · exact hi₁c t h ht2
      by_cases him : i₁ = seq.length
      case pos =>
        rw [if_pos (show (i₁ : Int) ≥ (seq.length : Int) by omega)]
        obtain ⟨k₁, hpfx, hk₁a, hk₁b, hk₁c, hk₁d⟩ :=
          prefixLoop_ok s seq jN ell hjm (by omega) (f + 1) kN hk (by omega)
        rw [hpfx, eBind_ok]
        have hPre₁ : ∀ t, t < k₁ → seq[t]? = s[jN + t]? := by
          intro t ht
          rcases Nat.lt_or_ge t kN with h | h
          · exact hPre t h
          · exact hk₁c t h ht
        by_cases hkell : k₁ = ell
        case pos =>
          rw [if_pos (show (i₁ : Int) ≥ (seq.length : Int) ∧ (k₁ : Int) ≥ (ell : Int) by
            constructor <;> omega)]
          have hoccj : occursIn s seq := by
            refine ⟨jN, hjm, ?_⟩
            intro t htm
            rcases Nat.lt_or_ge t ell with h | h
            · exact hPre₁ t (by omega)
            · exact hSuf₁ t h (by omega)
          rw [decide_eq_true hoccj]
        case neg =>
          rw [if_neg (by rintro ⟨-, hcon⟩; omega)]
          have hk₁lt : k₁ < ell := by omega
          have hmisP : seq[k₁]? ≠ s[jN + k₁]? := by
            rcases hk₁d with h | h
            · omega
            · exact h
          have hnj : ¬ occursAtN s seq jN := by
            rintro ⟨-, hmat⟩
            exact hmisP (hmat k₁ (by omega))
          obtain ⟨q, hqread⟩ : ∃ q, kmp[i₁]? = some q :=
            ⟨kmp.get ⟨i₁, by omega⟩, List.getElem?_eq_getElem (by omega)⟩
          have hq : IsStrongNext seq i₁ q := hK i₁ (by omega) q hqread
          exact scan_advance_ne_ell s seq kmp ell hKlen hE f ih i₁ jN (k₁ : Int) q
            hq hqread (by omega) (by omega) hjm hSuf₁
            (fun hcon => absurd hcon (by omega)) hnj hNo (by omega)
      case neg =>
        rw [if_neg (show ¬((i₁ : Int) ≥ (seq.length : Int)) by omega), eBind_ok]
        rw [if_neg (by rintro ⟨hcon, -⟩; omega)]
        have hmis : seq[i₁]? ≠ s[jN + i₁]? := by
          rcases hi₁d with h | h
          · omega
          · exact h
        have hnj : ¬ occursAtN s seq jN := by
          rintro ⟨-, hmat⟩
          exact hmis (hmat i₁ (by omega))
        obtain ⟨q, hqread⟩ : ∃ q, kmp[i₁]? = some q :=
          ⟨kmp.get ⟨i₁, by omega⟩, List.getElem?_eq_getElem (by omega)⟩
        have hq : IsStrongNext seq i₁ q := hK i₁ (by omega) q hqread
        by_cases hiell : i₁ = ell
        case neg =>
          exact scan_advance_ne_ell s seq kmp ell hKlen hE f ih i₁ jN (kN : Int) q
            hq hqread (by omega) (by omega) hjm hSuf₁ (fun _ => hmis) hnj hNo (by omega)
        case pos =>
          rw [advance_eval (ell : Int) (jN : Int) (kN : Int) (by omega) hqread,
            if_pos (show (i₁ : Int) = (ell : Int) by omega)]
          have hshift : (i₁ : Int) - q = 1 := by
            rcases Nat.eq_zero_or_pos i₁ with h0 | h1
            · have : q = -1 := isStrongNext_zero (h0 ▸ hq)
              omega
            · have hq' : IsStrongNext seq ell q := by rw [← hiell]; exact hq
              have hqv : q = (ell : Int) - 1 := strongNext_at_ell hE (by omega) hq'
              omega
          rw [eBind_ok_scan,
            scanLoop_cast s seq kmp (ell : Int) f rfl
              (show (jN : Int) + ((i₁ : Int) - q) = ((jN + 1 : Nat) : Int) by omega)
              (show (if (kN : Int) - 1 > 0 then (kN : Int) - 1 else 0) =
                ((kN - 1 : Nat) : Int) by split <;> omega)]
          refine ih i₁ (jN + 1) (kN - 1) (by omega) hi₁b (by omega)
            (fun t h1 h2 => absurd h1 (by omega))
            (invP_case_ell hE hk hPre) ?_ (by omega) (by omega)
          intro j' hj'
          rcases Nat.lt_or_ge j' jN with hh | hh
          · exact hNo j' hh
          · have hje : j' = jN := by omega
            subst hje
            exact hnj

/-! ## Top-level correctness -/

theorem apostolicoCrochemoreSearch_ok [DecidableEq T] (s seq : List T) (fuel : Nat)
    (hm : 2 ≤ seq.length) (hn : seq.length ≤ s.length) (hf : acFuel s seq ≤ fuel) :
    apostolicoCrochemoreSearch s seq fuel = .ok (decide (occursIn s seq)) := by
  unfold acFuel at hf
  unfold apostolicoCrochemoreSearch
  obtain ⟨kmp, hkmp, hKlen, hK⟩ := kmpNextOf_ok seq fuel (by omega)
  rw [hkmp, eBind_ok]
  obtain ⟨ell, hell, hE, hEm⟩ := computeEll_ok seq fuel (by omega) (by omega)
  rw [hell, eBind_ok]
  exact scanLoop_ok s seq kmp ell hm hn hKlen hK hE hEm fuel ell 0 0 le_rfl
    (by omega) (by omega)
    (fun t h1 h2 => absurd h1 (by omega)) (fun t ht => absurd ht (by omega))
    (fun j' hj' => absurd hj' (by omega)) (by omega) (by omega)

theorem occursIn_nil_pattern (s : List T) : occursIn s ([] : List T) :=
  ⟨0, by simp [occursAtN, matchesAt]⟩

theorem occursIn_singleton [DecidableEq T] (s : List T) (x : T) :
    occursIn s [x] ↔ x ∈ s := by
  constructor
  · rintro ⟨j, hj1, hmat⟩
    have := hmat 0 (by simp)
    simp only [List.getElem?_cons_zero, Nat.add_zero] at this
    obtain ⟨hlt, heq⟩ := List.getElem?_eq_some.mp this.symm
    exact heq ▸ List.getElem_mem hlt
  · intro hx
    obtain ⟨j, hjlt, hjx⟩ := List.getElem_of_mem hx
    refine ⟨j, by simpa using hjlt, ?_⟩
    intro t ht
    simp only [List.length_singleton] at ht
    have ht0 : t = 0 := by omega
    subst ht0
    simp only [List.getElem?_cons_zero, Nat.add_zero]
    rw [List.getElem?_eq_getElem hjlt, hjx]

theorem occursIn_too_long (s seq : List T) (h : s.length < seq.length) :
    ¬ occursIn s seq := by
  rintro ⟨j, hj1, -⟩
  omega

/-- The master theorem: with sufficient fuel, `ContainsSequence` decides
occurrence for every input and every option list. -/
theorem containsSequence_ok [DecidableEq T] (s seq : List T)
    (opts : List ContainsSequenceOpt) (fuel : Nat) (hf : acFuel s seq ≤ fuel) :
    ContainsSequence s seq opts fuel = .ok (decide (occursIn s seq)) := by
  by_cases h1 : s.length < seq.length
  · rw [containsSequence_too_long s seq opts fuel h1,
      decide_eq_false (occursIn_too_long s seq h1)]
  by_cases h2 : seq.length = 0
  · have : seq = [] := List.length_eq_zero.mp h2
    subst this
    rw [containsSequence_nil_pattern s opts fuel,
      decide_eq_true (occursIn_nil_pattern s)]
  by_cases h3 : seq.length = 1
  · obtain ⟨x, hx⟩ := List.length_eq_one.mp h3
    subst hx
    rw [containsSequence_one_pattern s x opts fuel]
    by_cases hmem : x ∈ s
    · rw [decide_eq_true ((occursIn_singleton s x).mpr hmem),
        (Contains_iff s x).mpr hmem]
    · rw [decide_eq_false (fun hcon => hmem ((occursIn_singleton s x).mp hcon))]
      congr 1
      by_contra hcon
      simp only [Bool.not_eq_false] at hcon
      exact hmem ((Contains_iff s x).mp hcon)
  · have hm : 2 ≤ seq.length := by omega
    have hn : seq.length ≤ s.length := by omega
    rw [containsSequence_dispatch s seq opts fuel hm hn]
    by_cases hsel : (resolveArgs opts).searchAlgorithm =
        containsSequenceApostolicoCrochemore
    · rw [if_pos hsel]
      exact apostolicoCrochemoreSearch_ok s seq fuel hm hn hf
    · rw [if_neg hsel]
      exact bruteForceSearch_ok s seq (Or.inl (by omega))

/-! ## The claims -/

/-- C1: `ContainsSequence` returns the same boolean regardless of the
algorithm selector passed — the results with the BruteForce option, the
ApostolicoCrochemore option, and no option are all equal; in particular
`bruteForceSearch` and `apostolicoCrochemoreSearch` agree whenever
`len(P) ≥ 2` and `len(H) ≥ len(P)` (with sufficient fuel, which the
Go loops always have since they run to completion). -/
theorem claim_C1_selector_independence {T : Type} [DecidableEq T] (s seq : List T)
    (opts opts' : List ContainsSequenceOpt) (fuel : Nat)
    (hf : acFuel s seq ≤ fuel) :
    ContainsSequence s seq opts fuel = ContainsSequence s seq opts' fuel ∧
      (2 ≤ seq.length → seq.length ≤ s.length →
        bruteForceSearch s seq = apostolicoCrochemoreSearch s seq fuel) := by
  constructor
  · rw [containsSequence_ok s seq opts fuel hf,
      containsSequence_ok s seq opts' fuel hf]
  · intro hm hn
    rw [bruteForceSearch_ok s seq (Or.inl (by omega)),
      apostolicoCrochemoreSearch_ok s seq fuel hm hn hf]

theorem claim_C1_selector_independence_witness :
    acFuel ([0, 1, 2] : List Nat) [1, 2] ≤ 100 ∧
      (ContainsSequence ([0, 1, 2] : List Nat) [1, 2]
          [ContainsSequenceApostolicoCrochemore] 100 =
        ContainsSequence ([0, 1, 2] : List Nat) [1, 2] [] 100 ∧
        (2 ≤ ([1, 2] : List Nat).length →
          ([1, 2] : List Nat).length ≤ ([0, 1, 2] : List Nat).length →
          bruteForceSearch ([0, 1, 2] : List Nat) [1, 2] =
            apostolicoCrochemoreSearch ([0, 1, 2] : List Nat) [1, 2] 100)) :=
  ⟨by decide,
    claim_C1_selector_independence [0, 1, 2] [1, 2]
      [ContainsSequenceApostolicoCrochemore] [] 100 (by decide)⟩

/-- C2 counterexample: on the all-empty input the claimed specification
(`true` iff some valid offset matches) fails — offset 0 matches
vacuously, yet `bruteForceSearch` returns `false` because its `range`
loop over the empty haystack never executes. -/
theorem claim_C2_counterexample :
    bruteForceSearch ([] : List Nat) ([] : List Nat) = .ok false ∧
      occursIn ([] : List Nat) ([] : List Nat) := by
  constructor
  · unfold bruteForceSearch
    rw [bruteOuter, if_neg (by simp)]
  · exact ⟨0, by simp [occursAtN, matchesAt]⟩

/-- C2 (amended): for every haystack `H` and pattern `P` **not both
empty**, `bruteForceSearch(H, P)` returns true iff some start offset
`idx` with `idx + len(P) ≤ len(H)` matches, and false otherwise. -/
theorem claim_C2_bruteforce_correct {T : Type} [DecidableEq T] (s seq : List T)
    (h : 1 ≤ seq.length ∨ 1 ≤ s.length) :
    (bruteForceSearch s seq = .ok true ↔ occursIn s seq) ∧
      bruteForceSearch s seq = .ok (decide (occursIn s seq)) := by
  have hok := bruteForceSearch_ok s seq h
  refine ⟨?_, hok⟩
  rw [hok]
  constructor
  · intro hh
    exact of_decide_eq_true (Except.ok.inj hh)
  · intro hp
    rw [decide_eq_true hp]

theorem claim_C2_bruteforce_correct_witness :
    (1 ≤ ([2] : List Nat).length ∨ 1 ≤ ([1, 2] : List Nat).length) ∧
      ((bruteForceSearch ([1, 2] : List Nat) [2] = .ok true ↔
          occursIn ([1, 2] : List Nat) [2]) ∧
        bruteForceSearch ([1, 2] : List Nat) [2] =
          .ok (decide (occursIn ([1, 2] : List Nat) [2]))) :=
  ⟨Or.inl (by decide), claim_C2_bruteforce_correct [1, 2] [2] (Or.inl (by decide))⟩

/-- C3: with fuel covering the loop bounds, every call to
`ContainsSequence` terminates (never exhausts fuel); moreover the
Apostolico-Crochemore alignment always advances because
`i - kmpNext[i] ≥ 1` for every table index. -/
theorem claim_C3_termination {T : Type} [DecidableEq T] (s seq : List T)
    (opts : List ContainsSequenceOpt) (fuel : Nat) (hf : acFuel s seq ≤ fuel) :
    ContainsSequence s seq opts fuel ≠ .error Err.fuel ∧
      (∀ kmp, kmpNextOf seq fuel = .ok kmp →
        ∀ i : Nat, i ≤ seq.length → ∀ q : Int, kmp[i]? = some q →
          1 ≤ (i : Int) - q) := by
  constructor
  · rw [containsSequence_ok s seq opts fuel hf]
    simp
  · intro kmp hkmp i hi q hq
    obtain ⟨kmp', hkmp', hKlen', hK'⟩ := kmpNextOf_ok seq fuel
      (by unfold acFuel at hf; omega)
    rw [hkmp'] at hkmp
    have heq : kmp' = kmp := Except.ok.inj hkmp
    subst heq
    have hs := hK' i hi q hq
    have h1 := isStrongNext_le hs
    omega

theorem claim_C3_termination_witness :
    acFuel ([0, 1, 2] : List Nat) [1, 2] ≤ 100 ∧
      (ContainsSequence ([0, 1, 2] : List Nat) [1, 2] [] 100 ≠ .error Err.fuel ∧
        (∀ kmp, kmpNextOf ([1, 2] : List Nat) 100 = .ok kmp →
          ∀ i : Nat, i ≤ ([1, 2] : List Nat).length → ∀ q : Int,
            kmp[i]? = some q → 1 ≤ (i : Int) - q)) :=
  ⟨by decide, claim_C3_termination [0, 1, 2] [1, 2] [] 100 (by decide)⟩

/-- C4: with sufficient fuel, `ContainsSequence` produces a boolean for
every input (of any lengths, including empty) under every selector:
there is no failure path, and in particular the out-of-bounds error
branch of the embedding is unreachable. -/
theorem claim_C4_no_failure {T : Type} [DecidableEq T] (s seq : List T)
    (opts : List ContainsSequenceOpt) (fuel : Nat) (hf : acFuel s seq ≤ fuel) :
    (∃ b : Bool, ContainsSequence s seq opts fuel = .ok b) ∧
      ContainsSequence s seq opts fuel ≠ .error Err.oob := by
  have h := containsSequence_ok s seq opts fuel hf
  refine ⟨⟨_, h⟩, ?_⟩
  rw [h]
  simp

theorem claim_C4_no_failure_witness :
    acFuel ([] : List Nat) [] ≤ 100 ∧
      ((∃ b : Bool, ContainsSequence ([] : List Nat) [] [] 100 = .ok b) ∧
        ContainsSequence ([] : List Nat) [] [] 100 ≠ .error Err.oob) :=
  ⟨by decide, claim_C4_no_failure [] [] [] 100 (by decide)⟩

/-- C5: for patterns of length ≥ 2 the constructed failure table has
`kmpNext[0] = -1` and `-1 ≤ kmpNext[idx] < idx` for every
`idx ≤ len(P)`, so iterating `idx → kmpNext[idx]` strictly decreases
down to `-1`. -/
theorem claim_C5_kmp_invariants {T : Type} [DecidableEq T] (seq : List T)
    (fuel : Nat) (hm : 2 ≤ seq.length) (hf : 2 * seq.length + 1 ≤ fuel)
    (kmp : List Int) (hkmp : kmpNextOf seq fuel = .ok kmp) :
    kmp[0]? = some (-1) ∧
      ∀ i : Nat, i ≤ seq.length → ∀ q : Int, kmp[i]? = some q →
        -1 ≤ q ∧ q < (i : Int) := by
  obtain ⟨kmp', hkmp', hKlen', hK'⟩ := kmpNextOf_ok seq fuel hf
  rw [hkmp'] at hkmp
  have heq : kmp' = kmp := Except.ok.inj hkmp
  subst heq
  constructor
  · have h0 : kmp'[0]? = some kmp'[0] := List.getElem?_eq_getElem (by omega)
    have hs := hK' 0 (by omega) kmp'[0] h0
    rw [isStrongNext_zero hs] at h0
    exact h0
  · intro i hi q hq
    have hs := hK' i hi q hq
    have h1 := isStrongNext_le hs
    exact ⟨hs.1, by omega⟩

theorem claim_C5_kmp_invariants_witness :
    (2 ≤ ([0, 1] : List Nat).length ∧ 2 * ([0, 1] : List Nat).length + 1 ≤ 10 ∧
      kmpNextOf ([0, 1] : List Nat) 10 = .ok [-1, 0, 0]) ∧
      (([-1, 0, 0] : List Int)[0]? = some (-1) ∧
        ∀ i : Nat, i ≤ ([0, 1] : List Nat).length → ∀ q : Int,
          ([-1, 0, 0] : List Int)[i]? = some q → -1 ≤ q ∧ q < (i : Int)) :=
  ⟨⟨by decide, by decide, by rfl⟩,
    claim_C5_kmp_invariants [0, 1] 10 (by decide) (by decide) [-1, 0, 0] (by rfl)⟩

/-- C6: the period prefix computed by the preprocessing equals the
spec's `ComputePeriodPrefix` procedure, and satisfies
`0 ≤ ell ≤ len(P)`, in fact `ell < len(P)`. -/
theorem claim_C6_ell_spec {T : Type} [DecidableEq T] (seq : List T) (fuel : Nat)
    (hm : 2 ≤ seq.length) (hf : seq.length ≤ fuel) :
    computeEll seq fuel = .ok (specEll seq) ∧ specEll seq ≤ seq.length ∧
      specEll seq < seq.length := by
  have heq := computeEll_eq_specEll seq fuel (by omega) hf
  obtain ⟨ell, hell, hE, hEm⟩ := computeEll_ok seq fuel (by omega) hf
  rw [heq] at hell
  have heq2 : specEll seq = ell := Except.ok.inj hell
  exact ⟨heq, by omega, by omega⟩

theorem claim_C6_ell_spec_witness :
    (2 ≤ ([0, 0, 1] : List Nat).length ∧ ([0, 0, 1] : List Nat).length ≤ 10) ∧
      (computeEll ([0, 0, 1] : List Nat) 10 = .ok (specEll [0, 0, 1]) ∧
        specEll ([0, 0, 1] : List Nat) ≤ ([0, 0, 1] : List Nat).length ∧
        specEll ([0, 0, 1] : List Nat) < ([0, 0, 1] : List Nat).length) :=
  ⟨⟨by decide, by decide⟩, claim_C6_ell_spec [0, 0, 1] 10 (by decide) (by decide)⟩

/-- C7: `ContainsSequence(H, [])` is true for every haystack (including
the empty one) and every selector. -/
theorem claim_C7_empty_pattern {T : Type} [DecidableEq T] (s : List T)
    (opts : List ContainsSequenceOpt) (fuel : Nat) :
    ContainsSequence s ([] : List T) opts fuel = .ok true :=
  containsSequence_nil_pattern s opts fuel

/-- C8: whenever the pattern is longer than the haystack,
`ContainsSequence` returns false under every selector; in particular on
the empty haystack with a nonempty pattern. -/
theorem claim_C8_pattern_longer {T : Type} [DecidableEq T] (s seq : List T)
    (opts : List ContainsSequenceOpt) (fuel : Nat)
    (h : s.length < seq.length) :
    ContainsSequence s seq opts fuel = .ok false :=
  containsSequence_too_long s seq opts fuel h

theorem claim_C8_pattern_longer_witness :
    ([] : List Nat).length < ([7] : List Nat).length ∧
      ContainsSequence ([] : List Nat) [7] [] 5 = .ok false :=
  ⟨by decide, claim_C8_pattern_longer [] [7] [] 5 (by decide)⟩

/-- C9: a singleton pattern delegates to the linear `Contains` check,
and the result is true iff some element of the haystack equals `x`. -/
theorem claim_C9_singleton {T : Type} [DecidableEq T] (s : List T) (x : T)
    (opts : List ContainsSequenceOpt) (fuel : Nat) :
    ContainsSequence s [x] opts fuel = .ok (Contains s x) ∧
      (ContainsSequence s [x] opts fuel = .ok true ↔ x ∈ s) := by
  have h1 := containsSequence_one_pattern s x opts fuel
  refine ⟨h1, ?_⟩
  rw [h1]
  constructor
  · intro h
    exact (Contains_iff s x).mp (Except.ok.inj h)
  · intro h
    rw [(Contains_iff s x).mpr h]

/-- C10: options are applied in order and the last one wins (each
recognized option overwrites the `searchAlgorithm` field); an empty
option list leaves the default, which dispatches to brute force. -/
theorem claim_C10_option_order {T : Type} [DecidableEq T] (s seq : List T)
    (fuel : Nat) (opts : List ContainsSequenceOpt) (o : ContainsSequenceOpt)
    (ho : o = ContainsSequenceApostolicoCrochemore ∨ o = ContainsSequenceBruteForce) :
    ContainsSequence s seq (opts ++ [o]) fuel = ContainsSequence s seq [o] fuel ∧
      (2 ≤ seq.length → seq.length ≤ s.length →
        ContainsSequence s seq [] fuel = bruteForceSearch s seq) := by
  constructor
  · have hargs : resolveArgs (opts ++ [o]) = resolveArgs [o] := by
      unfold resolveArgs
      rw [List.foldl_append]
      rcases ho with rfl | rfl <;> rfl
    unfold ContainsSequence
    rw [hargs]
  · intro hm hn
    rw [containsSequence_dispatch s seq [] fuel hm hn, if_neg (by decide)]

theorem claim_C10_option_order_witness :
    (ContainsSequenceBruteForce = ContainsSequenceApostolicoCrochemore ∨
        ContainsSequenceBruteForce = ContainsSequenceBruteForce) ∧
      (ContainsSequence ([0, 1, 2] : List Nat) [1, 2]
          ([ContainsSequenceApostolicoCrochemore] ++ [ContainsSequenceBruteForce]) 50 =
        ContainsSequence ([0, 1, 2] : List Nat) [1, 2] [ContainsSequenceBruteForce] 50 ∧
        (2 ≤ ([1, 2] : List Nat).length →
          ([1, 2] : List Nat).length ≤ ([0, 1, 2] : List Nat).length →
          ContainsSequence ([0, 1, 2] : List Nat) [1, 2] [] 50 =
            bruteForceSearch ([0, 1, 2] : List Nat) [1, 2])) :=
  ⟨Or.inr rfl,
    claim_C10_option_order [0, 1, 2] [1, 2] 50
      [ContainsSequenceApostolicoCrochemore] ContainsSequenceBruteForce (Or.inr rfl)⟩

end Funky
